import Mathlib

/-!
# Verification of the NIMS physiological-regressor engine (`nimsdata/nimsphysio.py`)

A shallow embedding, over exact rational arithmetic, of the regressor
computation `NIMSPhysio.compute_regressors` together with the timing model,
phase extractors, RV/HR window logic, error control flow and detrending pass.
Machine floats are modelled as `ℚ` (the code's arithmetic is exact in this
model); numpy array operations are modelled as `List` operations.

Conventions:
* `np_arange start stop step` models `np.arange` for a positive `step`.
* Array indexing `a[i]` is modelled with `List.getD` (the code only indexes
  in bounds on the paths the theorems talk about).
* Values of the form `c * pi` (phases) are represented by their rational
  coefficient; theorems about phases state the bound on `Real.pi * c`.
-/

/-- `np.arange(start, stop, step)` for `step > 0`: the values
`start + k*step` for `k = 0, 1, ...` that are strictly below `stop`
(`ceil((stop-start)/step)` of them, numpy's length formula). -/
def np_arange (start stop step : ℚ) : List ℚ :=
  (List.range (Int.toNat ⌈(stop - start) / step⌉)).map (fun (k : ℕ) => start + (k : ℚ) * step)

/-- `np.diff`: first difference, `d[i] = x[i+1] - x[i]`. -/
def np_diff (l : List ℚ) : List ℚ :=
  l.zipWith (fun a b => b - a) l.tail

/-- `np.sign` on rationals. -/
def np_sign (x : ℚ) : ℚ :=
  if 0 < x then 1 else if x < 0 then -1 else 0

/-- `arr.min()` of a (nonempty) numpy array; 0 on the empty list. -/
def listMin : List ℚ → ℚ
  | [] => 0
  | x :: xs => xs.foldl min x

/-- `arr.max()` of a (nonempty) numpy array; 0 on the empty list. -/
def listMax : List ℚ → ℚ
  | [] => 0
  | x :: xs => xs.foldl max x

/-- Line 218: `self.resp_wave = self.resp_wave - self.resp_wave.min()`. -/
def zeroMin (l : List ℚ) : List ℚ :=
  l.map (fun x => x - listMin l)

/-- Line 237: `cur_slice_acq = (sl==self.slice_order).nonzero()[0][0]` —
the first position in `slice_order` holding the value `sl`.  `none` models
the `IndexError` python raises when `sl` does not occur (the `[0]` lookup
on an empty index array). -/
def cur_slice_acq (slice_order : List ℕ) (sl : ℕ) : Option ℕ :=
  match slice_order with
  | [] => none
  | x :: xs => if x = sl then some 0 else (cur_slice_acq xs sl).map (· + 1)

/-- `slice_order` is a true permutation of `[0, nslices)`. -/
def isPermutation (l : List ℕ) : Prop :=
  l.Perm (List.range l.length)

instance (l : List ℕ) : Decidable (isPermutation l) := by
  unfold isPermutation; infer_instance

/-- Line 238 / 297: `slice_times = np.arange((tr/nslc)*(cur+0.5),
scan_duration, tr)`, the per-frame acquisition times of the slice acquired
at position `cur` (of `nslc`). -/
def sliceTimes (tr : ℚ) (nslc : ℕ) (cur : ℕ) (scan_duration : ℚ) : List ℚ :=
  np_arange ((tr / nslc) * (cur + 1/2)) scan_duration tr

/-- Line 213: `t_win = 6 * 0.5`, the RV/HR window half-width in seconds. -/
def t_win : ℚ := 6 * (1/2)

/-- Line 293: `t = np.arange(0, 40-self.tr, self.tr)` — the time grid on
which both response functions R (RRF) and H (CRF) are sampled. -/
def responseGrid (tr : ℚ) : List ℚ :=
  np_arange 0 (40 - tr) tr

/-- Lines 241-245: `t1`, the trigger at the last index with
`card_trig[i] < t` (`0.` when no such index exists). -/
def prevTrigT1 (card_trig : List ℚ) (t : ℚ) : ℚ :=
  (card_trig.filter (fun x => x < t)).getLastD 0

/-- Lines 246-250: `t2`, the trigger at the first index with
`card_trig[i] > t` (`nframes*tr` — passed here as `scan_end` — when no
such index exists). -/
def nextTrigT2 (card_trig : List ℚ) (t : ℚ) (scan_end : ℚ) : ℚ :=
  (card_trig.filter (fun x => t < x)).headD scan_end

/-- Line 251: `phi_cardiac = (t - t1) * 2π / (t2 - t1)`, represented by its
coefficient of `2π`: `cardFrac = (t - t1) / (t2 - t1)`. -/
def cardFrac (card_trig : List ℚ) (t scan_end : ℚ) : ℚ :=
  (t - prevTrigT1 card_trig t) / (nextTrigT2 card_trig t scan_end - prevTrigT1 card_trig t)

/-- Lower edge of the histogram range of `np.histogram(l, 100)`.  numpy uses
`[min, max]`, widened to `[min-0.5, max+0.5]` when the data are constant. -/
def histLo (l : List ℚ) : ℚ :=
  if listMin l = listMax l then listMin l - 1/2 else listMin l

/-- Upper edge of the histogram range of `np.histogram(l, 100)`. -/
def histHi (l : List ℚ) : ℚ :=
  if listMin l = listMax l then listMax l + 1/2 else listMax l

/-- Line 220: `bins` — the 101 bin edges of `np.histogram(l, 100)`,
equally spaced from `histLo` to `histHi`. -/
def binEdges (l : List ℚ) : List ℚ :=
  (List.range 101).map (fun (i : ℕ) => histLo l + (i : ℚ) * (histHi l - histLo l) / 100)

/-- The histogram bin a sample falls into: bin `i` spans
`[edge i, edge (i+1))`, except that the last bin also includes the upper
edge.  Equals numpy's assignment on `[histLo, histHi]` (exact arithmetic). -/
def binOf (l : List ℚ) (x : ℚ) : ℕ :=
  if histHi l ≤ x then 99
  else (⌊(x - histLo l) * 100 / (histHi l - histLo l)⌋).toNat

/-- Line 220: `Hb` — the 100 bin counts of `np.histogram(l, 100)`. -/
def histCounts (l : List ℚ) : List ℕ :=
  (List.range 100).map (fun i => l.countP (fun x => binOf l x = i))

/-- `np.argmin`: index of the first minimal element (0 on the empty list). -/
def argminIdx (l : List ℚ) : ℕ :=
  (l.enum.foldl (fun best p => if p.2 < best.2 then p else best) (0, l.headD 0)).1

/-- Lines 257-258: `thisBin = np.abs(amp - bins).argmin()`, the bin edge
closest to the sample amplitude `amp`. -/
def thisBin (rw : List ℚ) (amp : ℚ) : ℕ :=
  argminIdx ((binEdges rw).map (fun e => |amp - e|))

/-- Line 259: `numer = Hb[0:thisBin].sum()`. -/
def respNumer (rw : List ℚ) (amp : ℚ) : ℕ :=
  ((histCounts rw).take (thisBin rw amp)).sum

/-- Lines 253-260: `phi_resp = π * sign(drdt[iphys]) * numer / respfilt.size`,
represented by its coefficient of `π`.  `resp_wave` is the raw waveform
(the code has already shifted it to zero minimum at line 218, applied here
via `zeroMin`); `respfilt` is the output of the zero-phase FIR low-pass
filter of lines 223-228 (its coefficients are irrational, so the filtered
signal is a parameter here; `filtfilt` preserves length, stated as a
hypothesis where needed); `drdt = np.diff(respfilt)`; `iphys` is the
clamped rounded sample index of line 255. -/
def phiRespCoeff (resp_wave respfilt : List ℚ) (iphys : ℕ) : ℚ :=
  let rw := zeroMin resp_wave
  let amp := rw.getD iphys 0
  np_sign ((np_diff respfilt).getD iphys 0) * ((respNumer rw amp : ℚ) / (respfilt.length : ℚ))

/-- Line 301: `i1 = max(0, np.floor((slice_times[tp] - t_win) / resp_dt))`. -/
def rv_i1 (st resp_dt : ℚ) : ℤ :=
  max 0 ⌊(st - t_win) / resp_dt⌋

/-- Line 302: `i2 = min(resp_wave.size, np.floor((slice_times[tp] + t_win) / resp_dt))`. -/
def rv_i2 (resp_len : ℕ) (st resp_dt : ℚ) : ℤ :=
  min (resp_len : ℤ) ⌊(st + t_win) / resp_dt⌋

/-- Line 319: the indices of the cardiac triggers inside the window
`[st - t_win, st + t_win]` (both ends inclusive). -/
def hrWindow (card_trig : List ℚ) (st : ℚ) : List ℕ :=
  (List.range card_trig.length).filter
    (fun i => st - t_win ≤ card_trig.getD i 0 ∧ card_trig.getD i 0 ≤ st + t_win)

/-- Line 327: `hr[tp] = (inds[-1] - inds[0]) * 60 / (card_trig[inds[-1]] -
card_trig[inds[0]])` — the heart rate for a frame whose trigger window is
non-empty.  Note the numerator is a difference of positions in `card_trig`,
not a count of triggers. -/
def hrVal (card_trig : List ℚ) (st : ℚ) : ℚ :=
  let inds := hrWindow card_trig st
  let iF := inds.headD 0
  let iL := inds.getLastD 0
  ((iL : ℚ) - (iF : ℚ)) * 60 / (card_trig.getD iL 0 - card_trig.getD iF 0)

/-- The heart-rate value the spec describes: `(count - 1) * 60` over the
span between the first and last trigger falling in the window. -/
def hrSpecVal (card_trig : List ℚ) (st : ℚ) : ℚ :=
  let w := card_trig.filter (fun x => st - t_win ≤ x ∧ x ≤ st + t_win)
  ((w.length : ℚ) - 1) * 60 / (w.getLastD 0 - w.headD 0)

/-- Lines 317-327: the per-frame HR series, carrying the previous frame's
value into frames whose window is empty (`prev` starts at 0; the code
instead aborts when frame 0 has an empty window — that control path is
modelled by `runOutcome`). -/
def hrFrom (card_trig : List ℚ) (prev : ℚ) : List ℚ → List ℚ
  | [] => []
  | st :: rest =>
      let h := if (hrWindow card_trig st).isEmpty then prev else hrVal card_trig st
      h :: hrFrom card_trig h rest

/-- The pre-demean heart-rate series (`self.heart_rate[:,sl]`) over the
given slice times. -/
def hrSeries (card_trig : List ℚ) (times : List ℚ) : List ℚ :=
  hrFrom card_trig 0 times

/-- `Σ_{k<n} k^m`, the moment sums filling the normal-equation (Gram)
matrix of `np.polyfit(x, y, 2)` with `x = np.arange(len(y))`. -/
def powSum (n m : ℕ) : ℚ :=
  ((List.range n).map (fun (k : ℕ) => (k : ℚ) ^ m)).sum

/-- `Σ_k k^m * y[k]`, the right-hand sides of the normal equations. -/
def momSum (y : List ℚ) (m : ℕ) : ℚ :=
  ((List.range y.length).map (fun (k : ℕ) => (k : ℚ) ^ m * y.getD k 0)).sum

/-- Determinant of a 3×3 matrix given row-wise. -/
def det3 (a b c d e f g h i : ℚ) : ℚ :=
  a * (e * i - f * h) - b * (d * i - f * g) + c * (d * h - e * g)

/-- Determinant of the Gram matrix of the degree-2 fit on `n` nodes. -/
def gramDet (n : ℕ) : ℚ :=
  det3 (powSum n 0) (powSum n 1) (powSum n 2)
       (powSum n 1) (powSum n 2) (powSum n 3)
       (powSum n 2) (powSum n 3) (powSum n 4)

/-- Line 346's `np.polyfit(x, y, 2)` with `x = np.arange(len(y))`: the
least-squares quadratic coefficients `(c0, c1, c2)` (constant, linear,
quadratic), via Cramer's rule on the normal equations — which is what the
least-squares fit evaluates to in exact arithmetic whenever the system is
nondegenerate (`n ≥ 3`, always true at this point in the code). -/
def polyfit2 (y : List ℚ) : ℚ × ℚ × ℚ :=
  let n := y.length
  let D := gramDet n
  (det3 (momSum y 0) (powSum n 1) (powSum n 2)
        (momSum y 1) (powSum n 2) (powSum n 3)
        (momSum y 2) (powSum n 3) (powSum n 4) / D,
   det3 (powSum n 0) (momSum y 0) (powSum n 2)
        (powSum n 1) (momSum y 1) (powSum n 3)
        (powSum n 2) (momSum y 2) (powSum n 4) / D,
   det3 (powSum n 0) (powSum n 1) (momSum y 0)
        (powSum n 1) (powSum n 2) (momSum y 1)
        (powSum n 2) (powSum n 3) (momSum y 2) / D)

/-- Line 346: `y - np.polyval(np.polyfit(x, y, 2), x)` — subtract the
fitted quadratic from the column. -/
def detrend (y : List ℚ) : List ℚ :=
  let c := polyfit2 y
  (List.range y.length).map
    (fun (k : ℕ) => y.getD k 0 - (c.2.2 * (k : ℚ) ^ 2 + c.2.1 * (k : ℚ) + c.1))

/-- The input fields of a `NIMSPhysio` object that `compute_regressors`
reads: scan timing, cardiac triggers and waveform, respiration waveform and
its sampling interval. -/
structure PState where
  tr : ℚ
  nframes : ℕ
  slice_order : List ℕ
  card_trig : List ℚ
  card_wave : List ℚ
  resp_wave : List ℚ
  resp_dt : ℚ
  deriving DecidableEq, Repr

/-- How a call of `compute_regressors` ends.  `insufficientFrames` is the
early `return` of lines 207-211 (a warning, not an exception);
`filterValueError` is the untyped `ValueError` family of the respiration
preprocessing stage, lines 218-228: `arr.min()` on an empty waveform (218),
`scipy.signal.firwin(20, wn)` with a normalized cutoff `wn = 2*resp_dt`
outside `(0, 1)` (227), or `scipy.signal.filtfilt` on a waveform of at most
`3 * ntaps = 60` samples (228); `sliceLookupError` is the untyped
`IndexError` from line 237 when a slice index does not occur in
`slice_order`; `respShort` is the `NIMSPhysioError` of line 304;
`cardMismatch` the one of line 325; `ok` a completed run. -/
inductive Outcome
  | insufficientFrames
  | filterValueError
  | sliceLookupError
  | respShort
  | cardMismatch
  | ok
  deriving DecidableEq, Repr

/-- The slice times of acquisition position `cur` for state `s`
(`scan_duration = nframes * tr` is fixed in `__init__`, line 98). -/
def stateSliceTimes (s : PState) (cur : ℕ) : List ℚ :=
  sliceTimes s.tr s.slice_order.length cur (s.nframes * s.tr)

/-- Lines 300-304 for one slice: does the RV loop hit `i2 < i1` at some
frame? -/
def sliceRespShort (s : PState) (cur : ℕ) : Bool :=
  (List.range s.nframes).any (fun tp =>
    rv_i2 s.resp_wave.length ((stateSliceTimes s cur).getD tp 0) s.resp_dt <
      rv_i1 ((stateSliceTimes s cur).getD tp 0) s.resp_dt)

/-- Lines 318-325 for one slice: is the cardiac trigger window of frame 0
empty? -/
def sliceCardMismatch (s : PState) (cur : ℕ) : Bool :=
  (hrWindow s.card_trig ((stateSliceTimes s cur).getD 0 0)).isEmpty

/-- The fatal check for one slice of the RVHR loop (lines 294-337): the RV
length check over all frames (raising first, lines 300-304), then the frame-0
cardiac window check (lines 318-325); `none` when the slice raises nothing. -/
def sliceCheck (s : PState) (sl : ℕ) : Option Outcome :=
  match cur_slice_acq s.slice_order sl with
  | none => none
  | some cur =>
    if sliceRespShort s cur then some Outcome.respShort
    else if sliceCardMismatch s cur then some Outcome.cardMismatch
    else none

/-- The respiration preprocessing of lines 218-228 raises no untyped
`ValueError`: the waveform is nonempty (line 218's `.min()`, subsumed by the
length bound), `firwin`'s normalized cutoff `wn = f_cutoff/(fs/2) =
2*resp_dt` lies strictly in `(0, 1)` (line 227; `resp_dt = 0` moreover
divides by zero computing `fs` at line 224), and the waveform is longer than
`filtfilt`'s default pad length `3 * max(len(b), len(a)) = 3 * 20 = 60`
(line 228). -/
def filterStageOk (s : PState) : Prop :=
  0 < s.resp_dt ∧ 2 * s.resp_dt < 1 ∧ 60 < s.resp_wave.length

instance (s : PState) : Decidable (filterStageOk s) := by
  unfold filterStageOk
  infer_instance

/-- The control flow of `compute_regressors` (lines 207-346): the early
return for `nframes < 3`; then the respiration preprocessing (lines
218-228), whose `.min()`/`firwin`/`filtfilt` calls raise an untyped
`ValueError` when `filterStageOk` fails; then the phase loop, whose only
remaining failure is the untyped per-slice lookup of line 237; then, slice
by slice in acquisition order, the RV length check (lines 300-304) followed
by the frame-0 cardiac window check (lines 318-325). -/
def runOutcome (s : PState) : Outcome :=
  if s.nframes < 3 then .insufficientFrames
  else if ¬ filterStageOk s then .filterValueError
  else
    let nslc := s.slice_order.length
    if (List.range nslc).any (fun sl => (cur_slice_acq s.slice_order sl).isNone) then
      .sliceLookupError
    else
      match (List.range nslc).findSome? (sliceCheck s) with
      | some e => e
      | none => .ok

/-- The values of the input fields after `compute_regressors` runs
(successfully or not).  The only write to an input field is line 218,
`self.resp_wave = self.resp_wave - self.resp_wave.min()`, executed on every
path past the `nframes < 3` early return and before any raise;
`tr`, `nframes`, `slice_order`, `card_trig` and `card_wave` are never
assigned inside `compute_regressors`. -/
def afterInputs (s : PState) : PState :=
  if s.nframes < 3 then s else { s with resp_wave := zeroMin s.resp_wave }

/-- Observable result of one `compute_regressors` call: the outcome, the
warning text printed/logged (if any), and whether each derived tensor was
assigned a fresh non-`None` value during the call. -/
structure RunResult where
  outcome : Outcome
  warning : Option String
  regressorsSet : Bool
  phasesSet : Bool
  heartRateSet : Bool
  deriving DecidableEq, Repr

/-- One call of `compute_regressors`: on `nframes < 3` the code sets
`self.regressors = None`, warns, and returns (lines 207-211) — no other
derived field is touched.  Otherwise `self.phases` is assigned at line 234
(reached whenever the preprocessing of lines 218-228 survives, even if a
slice lookup later fails), `self.heart_rate` at line 292 (reached only if
every slice lookup succeeded), and `self.regressors` at line 342 (reached
only if no error was raised). -/
def runModel (s : PState) : RunResult :=
  if s.nframes < 3 then
    ⟨.insufficientFrames, some "Need at least 3 temporal frames to compute regressors!",
      false, false, false⟩
  else
    let o := runOutcome s
    ⟨o, none, o = .ok, o ≠ .filterValueError,
      o ≠ .filterValueError ∧ o ≠ .sliceLookupError⟩

/-- A concrete single-slice scan: `tr = 2`, 3 frames (slice times 1, 3, 5),
cardiac triggers every second, `resp_dt = 1/40` (so `firwin`'s cutoff
`2*resp_dt = 1/20` is valid), and the given respiration waveform.  The RV
window of the last frame needs `i1 = 80 ≤ i2`. -/
def scanState (resp : List ℚ) : PState :=
  ⟨2, 3, [0], [0, 1, 2, 3, 4, 5, 6], [], resp, 1/40⟩

/-- The `scanState` scan with a respiration waveform whose minimum is 1
instead of 0, so the zero-min shift of line 218 changes it. -/
def shiftWitnessState : PState :=
  scanState (1 :: List.replicate 79 1)

theorem getD_mapRange (n : ℕ) (f : ℕ → ℚ) (k : ℕ) (hk : k < n) :
    ((List.range n).map f).getD k 0 = f k := by
  rw [List.getD_eq_getElem _ _ (by simpa using hk)]
  simp

theorem np_arange_length (start stop step : ℚ) :
    (np_arange start stop step).length = Int.toNat ⌈(stop - start) / step⌉ := by
  unfold np_arange
  rw [List.length_map, List.length_range]

theorem np_arange_getD (start stop step : ℚ) (k : ℕ)
    (hk : k < (np_arange start stop step).length) :
    (np_arange start stop step).getD k 0 = start + k * step := by
  rw [np_arange_length] at hk
  exact getD_mapRange _ _ _ hk

theorem mem_np_arange (start stop step x : ℚ) (hstep : 0 < step) :
    x ∈ np_arange start stop step ↔ ∃ k : ℕ, x = start + k * step ∧ x < stop := by
  unfold np_arange
  constructor
  · intro hx
    obtain ⟨k, hk, hfk⟩ := List.mem_map.mp hx
    rw [List.mem_range, Int.lt_toNat, Int.lt_ceil] at hk
    push_cast at hk
    have h2 := (lt_div_iff hstep).mp hk
    refine ⟨k, hfk.symm, ?_⟩
    rw [← hfk]
    linarith
  · rintro ⟨k, hxk, hx⟩
    refine List.mem_map.mpr ⟨k, ?_, hxk.symm⟩
    rw [List.mem_range, Int.lt_toNat, Int.lt_ceil]
    push_cast
    rw [lt_div_iff hstep]
    rw [hxk] at hx
    linarith

theorem sliceTimes_length (tr : ℚ) (nslc cur nframes : ℕ)
    (htr : 0 < tr) (hc : cur < nslc) :
    (sliceTimes tr nslc cur (nframes * tr)).length = nframes := by
  have hn : (0:ℚ) < (nslc:ℚ) := by exact_mod_cast Nat.pos_of_ne_zero (by omega)
  have hδ0 : (0:ℚ) ≤ ((cur:ℚ) + 1/2) / nslc := by positivity
  have hδ1 : ((cur:ℚ) + 1/2) / nslc < 1 := by
    rw [div_lt_one hn]
    have : (cur:ℚ) + 1 ≤ nslc := by exact_mod_cast hc
    linarith
  unfold sliceTimes
  rw [np_arange_length]
  have harg : ((nframes:ℚ) * tr - (tr / nslc) * (cur + 1/2)) / tr
      = -(((cur:ℚ) + 1/2) / nslc) + ((nframes : ℤ) : ℚ) := by
    push_cast
    field_simp
    ring
  rw [harg, Int.ceil_add_int, Int.ceil_neg,
    Int.floor_eq_zero_iff.mpr ⟨hδ0, hδ1⟩]
  simp

theorem sliceTimes_getD (tr : ℚ) (nslc cur nframes k : ℕ)
    (htr : 0 < tr) (hc : cur < nslc) (hk : k < nframes) :
    (sliceTimes tr nslc cur (nframes * tr)).getD k 0
      = (tr / nslc) * ((cur:ℚ) + 1/2) + k * tr := by
  have hl := sliceTimes_length tr nslc cur nframes htr hc
  exact np_arange_getD _ _ _ _ (by rw [sliceTimes] at hl; rw [hl]; exact hk)

theorem sliceTime_pos (tr : ℚ) (nslc cur k : ℕ) (htr : 0 < tr) (hns : 0 < nslc) :
    0 < (tr / nslc) * ((cur:ℚ) + 1/2) + k * tr := by
  have hn : (0:ℚ) < (nslc:ℚ) := by exact_mod_cast hns
  have h1 : 0 < (tr / nslc) * ((cur:ℚ) + 1/2) := by positivity
  have h2 : (0:ℚ) ≤ k * tr := by positivity
  linarith

theorem sliceTime_lt (tr : ℚ) (nslc cur nframes k : ℕ) (htr : 0 < tr)
    (hc : cur < nslc) (hk : k < nframes) :
    (tr / nslc) * ((cur:ℚ) + 1/2) + k * tr < nframes * tr := by
  have hn : (0:ℚ) < (nslc:ℚ) := by exact_mod_cast Nat.pos_of_ne_zero (by omega)
  have hoff : (tr / nslc) * ((cur:ℚ) + 1/2) < tr := by
    rw [div_mul_eq_mul_div, div_lt_iff hn]
    have : (cur:ℚ) + 1 ≤ nslc := by exact_mod_cast hc
    nlinarith
  have hkn : ((k:ℚ) + 1) ≤ nframes := by exact_mod_cast hk
  nlinarith

/-- C1 (counterexample): with `tr = 2`, the value 38 is a multiple of `tr`
that is strictly below 40, yet it is absent from the code's response-function
time grid `np.arange(0, 40-tr, tr)` — so the grid is not "the multiples of
`tr` below 40". -/
theorem c1_grid_counterexample :
    (∃ k : ℕ, (38:ℚ) = k * 2 ∧ (38:ℚ) < 40) ∧ (38:ℚ) ∉ responseGrid 2 := by
  refine ⟨⟨19, by norm_num⟩, ?_⟩
  simp only [responseGrid, np_arange]
  norm_num
  intro x hx h
  have hq : (x:ℚ) = 19 := by linarith
  have : x = 19 := by exact_mod_cast hq
  omega

/-- C1 (amended): the time grid used for both response functions R and H
consists of the multiples of `tr` starting at 0 that are strictly less than
`40 - tr` (the code passes `40 - tr`, not 40, as the `arange` stop). -/
theorem c1_grid_amended (tr : ℚ) (htr : 0 < tr) (x : ℚ) :
    x ∈ responseGrid tr ↔ ∃ k : ℕ, x = k * tr ∧ x < 40 - tr := by
  unfold responseGrid
  rw [mem_np_arange _ _ _ _ htr]
  simp [zero_add]

/-- C1 (witness): the amended characterization applied at `tr = 2`,
`x = 36`. -/
theorem c1_grid_amended_witness :
    (0:ℚ) < 2 ∧ ((36:ℚ) ∈ responseGrid 2 ↔ ∃ k : ℕ, (36:ℚ) = k * 2 ∧ (36:ℚ) < 40 - 2) :=
  ⟨by norm_num, c1_grid_amended 2 (by norm_num) 36⟩

/-- C2 (counterexample): `slice_order = [0,0]` is not a permutation of
`[0,2)`, yet the code's per-slice lookup silently resolves slice 0 to the
first matching position and, for the missing slice 1, fails with an untyped
`IndexError` (modelled by `none`) — no typed `ConfigurationError` is ever
reported. -/
theorem c2_lookup_counterexample :
    ¬ isPermutation [0, 0]
      ∧ cur_slice_acq [0, 0] 0 = some 0
      ∧ cur_slice_acq [0, 0] 1 = none := by
  refine ⟨by decide, rfl, rfl⟩

theorem cur_slice_acq_spec (so : List ℕ) (sl : ℕ) :
    (∀ i, cur_slice_acq so sl = some i →
        so.get? i = some sl ∧ ∀ j, j < i → so.get? j ≠ some sl)
    ∧ (cur_slice_acq so sl = none ↔ sl ∉ so) := by
  induction so with
  | nil =>
    exact ⟨fun i hi => by simp [cur_slice_acq] at hi, by simp [cur_slice_acq]⟩
  | cons x xs ih =>
    refine ⟨fun i hi => ?_, ?_⟩
    · by_cases hx : x = sl
      · unfold cur_slice_acq at hi
        rw [if_pos hx] at hi
        have hi0 : i = 0 := (Option.some.inj hi).symm
        subst hi0
        subst hx
        exact ⟨rfl, fun j hj => absurd hj (Nat.not_lt_zero j)⟩
      · unfold cur_slice_acq at hi
        rw [if_neg hx] at hi
        obtain ⟨i', hi', rfl⟩ := Option.map_eq_some'.mp hi
        obtain ⟨h1, h2⟩ := ih.1 i' hi'
        refine ⟨h1, ?_⟩
        intro j hj
        cases j with
        | zero =>
          intro hc
          exact hx (Option.some.inj hc)
        | succ j' =>
          exact h2 j' (by omega)
    · constructor
      · intro h
        unfold cur_slice_acq at h
        by_cases hx : x = sl
        · rw [if_pos hx] at h
          exact absurd h (by simp)
        · rw [if_neg hx] at h
          have hnone : cur_slice_acq xs sl = none := by
            cases hcc : cur_slice_acq xs sl with
            | none => rfl
            | some v => rw [hcc] at h; simp at h
          have hmem := ih.2.mp hnone
          intro hin
          rcases List.mem_cons.mp hin with h1 | h2
          · exact hx h1.symm
          · exact hmem h2
      · intro h
        have hx : x ≠ sl := fun he => h (he ▸ List.mem_cons_self x xs)
        have hnx : sl ∉ xs := fun hm => h (List.mem_cons_of_mem _ hm)
        unfold cur_slice_acq
        rw [if_neg hx, ih.2.mpr hnx]
        rfl

/-- C2 (amended): the acquisition-position lookup of line 237 performs no
permutation validation: it returns the first index at which `slice_order`
holds `sl`, and when `sl` does not occur it fails with an untyped
`IndexError` (`none`), not a typed `ConfigurationError`. -/
theorem c2_lookup_amended (so : List ℕ) (sl : ℕ) :
    (∀ i, cur_slice_acq so sl = some i →
        so.get? i = some sl ∧ ∀ j, j < i → so.get? j ≠ some sl)
    ∧ (cur_slice_acq so sl = none ↔ sl ∉ so) :=
  cur_slice_acq_spec so sl

/-- C2 (witness): the amended lookup behaviour at concrete inputs — in
`[1,0]` the value 0 is first found at index 1, and 5 is absent from
`[2,3]`. -/
theorem c2_lookup_amended_witness :
    ([1, 0].get? 1 = some 0 ∧ ∀ j, j < 1 → [1, 0].get? j ≠ some 0)
      ∧ (cur_slice_acq [2, 3] 5 = none ↔ 5 ∉ [2, 3]) :=
  ⟨(c2_lookup_amended [1, 0] 0).1 1 rfl, (c2_lookup_amended [2, 3] 5).2⟩

/-- C8: for a valid acquisition position `cur < nslices`, the slice-time
vector has exactly `nframes` entries `t_k = (tr/nslices)*(cur+0.5) + k*tr`,
each strictly between 0 and `nframes*tr`; and for `nslices = 2`,
`slice_order = [1,0]`, slice 0 resolves to acquisition position 1 and its
slice times exceed slice 1's elementwise by exactly `tr/2`. -/
theorem c8_slice_times (tr : ℚ) (nslc cur nframes : ℕ)
    (htr : 0 < tr) (hc : cur < nslc) :
    ((sliceTimes tr nslc cur (nframes * tr)).length = nframes
      ∧ ∀ k, k < nframes →
          (sliceTimes tr nslc cur (nframes * tr)).getD k 0
              = (tr / nslc) * ((cur:ℚ) + 1/2) + k * tr
          ∧ 0 < (sliceTimes tr nslc cur (nframes * tr)).getD k 0
          ∧ (sliceTimes tr nslc cur (nframes * tr)).getD k 0 < nframes * tr)
    ∧ (cur_slice_acq [1, 0] 0 = some 1 ∧ cur_slice_acq [1, 0] 1 = some 0
      ∧ ∀ k, k < nframes →
          (sliceTimes tr 2 1 (nframes * tr)).getD k 0
            - (sliceTimes tr 2 0 (nframes * tr)).getD k 0 = tr / 2) := by
  refine ⟨⟨sliceTimes_length tr nslc cur nframes htr hc, fun k hk => ?_⟩,
    rfl, rfl, fun k hk => ?_⟩
  · have hg := sliceTimes_getD tr nslc cur nframes k htr hc hk
    refine ⟨hg, ?_, ?_⟩
    · rw [hg]; exact sliceTime_pos tr nslc cur k htr (by omega)
    · rw [hg]; exact sliceTime_lt tr nslc cur nframes k htr hc hk
  · rw [sliceTimes_getD tr 2 1 nframes k htr (by omega) hk,
      sliceTimes_getD tr 2 0 nframes k htr (by omega) hk]
    push_cast
    ring

/-- C8 (witness): the slice-time characterization at `tr = 2`, `nslices = 2`,
`cur = 1`, `nframes = 3`, evaluated at frame 0. -/
theorem c8_slice_times_witness :
    (0:ℚ) < 2 ∧
      (sliceTimes 2 2 1 (3 * 2)).getD 0 0 - (sliceTimes 2 2 0 (3 * 2)).getD 0 0 = 2 / 2 :=
  ⟨by norm_num,
    (c8_slice_times 2 2 1 3 (by norm_num) (by norm_num)).2.2.2 0 (by norm_num)⟩

theorem prevTrigT1_lt (trig : List ℚ) (t : ℚ) (ht : 0 < t) :
    prevTrigT1 trig t < t := by
  unfold prevTrigT1
  cases hl : trig.filter (fun x => x < t) with
  | nil => simpa using ht
  | cons a as =>
    have hall : ∀ x ∈ a :: as, x < t := by
      intro x hx
      have hx2 : x ∈ trig.filter (fun x => x < t) := by rw [hl]; exact hx
      have := (List.mem_filter.mp hx2).2
      simpa using this
    rw [List.getLastD_cons]
    exact hall _ (List.getLastD_mem_cons as a)

theorem nextTrigT2_ge (trig : List ℚ) (t scan_end : ℚ) (hts : t ≤ scan_end) :
    t ≤ nextTrigT2 trig t scan_end := by
  unfold nextTrigT2
  cases hl : trig.filter (fun x => t < x) with
  | nil => simpa using hts
  | cons a as =>
    have hmem : a ∈ a :: as := List.mem_cons_self a as
    rw [← hl] at hmem
    have := (List.mem_filter.mp hmem).2
    simp only [decide_eq_true_eq] at this
    simpa using le_of_lt this

theorem cardFrac_bounds (trig : List ℚ) (t scan_end : ℚ)
    (ht : 0 < t) (hts : t ≤ scan_end) :
    0 ≤ cardFrac trig t scan_end ∧ cardFrac trig t scan_end ≤ 1 := by
  have h1 := prevTrigT1_lt trig t ht
  have h2 := nextTrigT2_ge trig t scan_end hts
  have hd : 0 < nextTrigT2 trig t scan_end - prevTrigT1 trig t := by linarith
  unfold cardFrac
  constructor
  · apply div_nonneg (by linarith) (le_of_lt hd)
  · rw [div_le_one hd]
    linarith

theorem cardFrac_nil (t scan_end : ℚ) :
    cardFrac [] t scan_end = t / scan_end := by
  simp [cardFrac, prevTrigT1, nextTrigT2]

/-- C5: for a valid slice/frame, when at least one cardiac trigger exists the
stored cardiac phase `2π * cardFrac` lies in `[0, 2π]`; and when `card_trig`
is empty (so `t1 = 0`, `t2 = nframes*tr` for every frame) the cardiac phase
is non-decreasing in the frame index for a fixed slice. -/
theorem c5_cardiac_phase (tr : ℚ) (nslc cur nframes fr : ℕ) (card_trig : List ℚ)
    (htr : 0 < tr) (hc : cur < nslc) (hf : fr < nframes) :
    (card_trig ≠ [] →
      0 ≤ 2 * Real.pi *
          (cardFrac card_trig ((sliceTimes tr nslc cur (nframes * tr)).getD fr 0)
            (nframes * tr) : ℝ)
      ∧ 2 * Real.pi *
          (cardFrac card_trig ((sliceTimes tr nslc cur (nframes * tr)).getD fr 0)
            (nframes * tr) : ℝ) ≤ 2 * Real.pi)
    ∧ (card_trig = [] → ∀ fr', fr ≤ fr' → fr' < nframes →
      2 * Real.pi *
          (cardFrac card_trig ((sliceTimes tr nslc cur (nframes * tr)).getD fr 0)
            (nframes * tr) : ℝ)
        ≤ 2 * Real.pi *
          (cardFrac card_trig ((sliceTimes tr nslc cur (nframes * tr)).getD fr' 0)
            (nframes * tr) : ℝ)) := by
  have hg := sliceTimes_getD tr nslc cur nframes fr htr hc hf
  have htpos : 0 < (sliceTimes tr nslc cur (nframes * tr)).getD fr 0 := by
    rw [hg]; exact sliceTime_pos tr nslc cur fr htr (by omega)
  have htlt : (sliceTimes tr nslc cur (nframes * tr)).getD fr 0 < nframes * tr := by
    rw [hg]; exact sliceTime_lt tr nslc cur nframes fr htr hc hf
  have h2pi : (0:ℝ) ≤ 2 * Real.pi := by positivity
  constructor
  · intro _
    obtain ⟨hb0, hb1⟩ := cardFrac_bounds card_trig
      ((sliceTimes tr nslc cur (nframes * tr)).getD fr 0) (nframes * tr)
      htpos (le_of_lt htlt)
    constructor
    · apply mul_nonneg h2pi
      exact_mod_cast hb0
    · nth_rewrite 2 [show (2:ℝ) * Real.pi = 2 * Real.pi * 1 by ring]
      apply mul_le_mul_of_nonneg_left _ h2pi
      exact_mod_cast hb1
  · intro he fr' hle hf'
    subst he
    have hg' := sliceTimes_getD tr nslc cur nframes fr' htr hc hf'
    rw [cardFrac_nil, cardFrac_nil, hg, hg']
    apply mul_le_mul_of_nonneg_left _ h2pi
    have hmono : (tr / nslc) * ((cur:ℚ) + 1/2) + fr * tr
        ≤ (tr / nslc) * ((cur:ℚ) + 1/2) + fr' * tr := by
      have : (fr:ℚ) ≤ fr' := by exact_mod_cast hle
      nlinarith
    have hden : (0:ℚ) < (nframes:ℚ) * tr := by
      have hn0 : (0:ℚ) < (nframes:ℚ) := by
        exact_mod_cast Nat.pos_of_ne_zero (by omega)
      positivity
    have hq : ((tr / nslc) * ((cur:ℚ) + 1/2) + fr * tr) / ((nframes:ℚ) * tr)
        ≤ ((tr / nslc) * ((cur:ℚ) + 1/2) + fr' * tr) / ((nframes:ℚ) * tr) := by
      rw [div_le_div_iff hden hden]
      nlinarith
    exact_mod_cast hq

/-- C5 (witness): the cardiac-phase bound at `tr = 2`, one slice, three
frames, a single trigger at `t = 1`. -/
theorem c5_cardiac_phase_witness :
    0 ≤ 2 * Real.pi *
        (cardFrac [1] ((sliceTimes 2 1 0 (((3:ℕ):ℚ) * 2)).getD 0 0) (((3:ℕ):ℚ) * 2) : ℝ)
    ∧ 2 * Real.pi *
        (cardFrac [1] ((sliceTimes 2 1 0 (((3:ℕ):ℚ) * 2)).getD 0 0) (((3:ℕ):ℚ) * 2) : ℝ)
      ≤ 2 * Real.pi :=
  (c5_cardiac_phase 2 1 0 3 0 [1] (by norm_num) (by norm_num) (by norm_num)).1 (by simp)

theorem sum_indicator_range (f : ℚ → ℕ) (x : ℚ) (m : ℕ) :
    ((List.range m).map (fun i => if f x = i then 1 else 0)).sum
      = if f x < m then 1 else 0 := by
  induction m with
  | zero => simp
  | succ n ih =>
    rw [List.range_succ, List.map_append, List.sum_append, ih]
    simp only [List.map_cons, List.map_nil, List.sum_cons, List.sum_nil]
    split_ifs <;> omega

theorem fiber_count_le_length (l : List ℚ) (f : ℚ → ℕ) (m : ℕ) :
    ((List.range m).map (fun i => l.countP (fun x => f x = i))).sum ≤ l.length := by
  induction l with
  | nil => simp
  | cons x xs ih =>
    have hsplit : ((List.range m).map (fun i => (x :: xs).countP (fun y => f y = i))).sum
        = ((List.range m).map (fun i => xs.countP (fun y => f y = i))).sum
          + ((List.range m).map (fun i => if f x = i then 1 else 0)).sum := by
      rw [← List.sum_map_add]
      congr 1
      apply List.map_congr_left
      intro i _
      rw [List.countP_cons]
      simp
    rw [hsplit, sum_indicator_range]
    simp only [List.length_cons]
    split_ifs <;> omega

theorem respNumer_le_length (rw' : List ℚ) (amp : ℚ) :
    respNumer rw' amp ≤ rw'.length := by
  unfold respNumer
  have h1 : ((histCounts rw').take (thisBin rw' amp)).sum ≤ (histCounts rw').sum := by
    conv_rhs => rw [← List.take_append_drop (thisBin rw' amp) (histCounts rw')]
    rw [List.sum_append]
    omega
  have h2 : (histCounts rw').sum ≤ rw'.length := by
    unfold histCounts
    exact fiber_count_le_length rw' (binOf rw') 100
  omega

theorem zeroMin_length (l : List ℚ) : (zeroMin l).length = l.length := by
  simp [zeroMin]

/-- C10: the respiratory phase `π * phiRespCoeff` always lies in `[-π, π]`,
because the partial histogram count never exceeds the total sample count and
the sign factor is in `\x7b-1, 0, 1\x7d`; and it is exactly 0 whenever the
filtered derivative at the selected sample is 0. -/
theorem c10_resp_phase (resp_wave respfilt : List ℚ) (iphys : ℕ)
    (hne : resp_wave ≠ []) (hlen : respfilt.length = resp_wave.length) :
    (-Real.pi ≤ Real.pi * (phiRespCoeff resp_wave respfilt iphys : ℝ)
      ∧ Real.pi * (phiRespCoeff resp_wave respfilt iphys : ℝ) ≤ Real.pi)
    ∧ ((np_diff respfilt).getD iphys 0 = 0 →
        phiRespCoeff resp_wave respfilt iphys = 0) := by
  have hlen0 : 0 < respfilt.length := by
    rw [hlen]
    exact List.length_pos.mpr hne
  have habs : |phiRespCoeff resp_wave respfilt iphys| ≤ 1 := by
    unfold phiRespCoeff
    rw [abs_mul]
    have h1 : |np_sign ((np_diff respfilt).getD iphys 0)| ≤ 1 := by
      unfold np_sign
      split_ifs <;> norm_num
    have hfrac0 : (0:ℚ) ≤ (respNumer (zeroMin resp_wave) ((zeroMin resp_wave).getD iphys 0) : ℚ)
        / (respfilt.length : ℚ) := by positivity
    have hfrac1 : (respNumer (zeroMin resp_wave) ((zeroMin resp_wave).getD iphys 0) : ℚ)
        / (respfilt.length : ℚ) ≤ 1 := by
      rw [div_le_one (by exact_mod_cast hlen0)]
      have hn := respNumer_le_length (zeroMin resp_wave) ((zeroMin resp_wave).getD iphys 0)
      rw [zeroMin_length] at hn
      exact_mod_cast hlen ▸ hn
    calc |np_sign ((np_diff respfilt).getD iphys 0)|
          * |(respNumer (zeroMin resp_wave) ((zeroMin resp_wave).getD iphys 0) : ℚ)
              / (respfilt.length : ℚ)|
        ≤ 1 * 1 := by
          apply mul_le_mul h1 _ (abs_nonneg _) (by norm_num)
          rw [abs_of_nonneg hfrac0]
          exact hfrac1
      _ = 1 := by norm_num
  obtain ⟨hq1, hq2⟩ := abs_le.mp habs
  refine ⟨⟨?_, ?_⟩, ?_⟩
  · have := mul_le_mul_of_nonneg_left
      (show ((-1:ℚ):ℝ) ≤ (phiRespCoeff resp_wave respfilt iphys : ℝ) by exact_mod_cast hq1)
      Real.pi_pos.le
    push_cast at this
    linarith
  · have := mul_le_mul_of_nonneg_left
      (show (phiRespCoeff resp_wave respfilt iphys : ℝ) ≤ ((1:ℚ):ℝ) by exact_mod_cast hq2)
      Real.pi_pos.le
    push_cast at this
    linarith
  · intro h
    unfold phiRespCoeff
    rw [h]
    simp [np_sign]

/-- C10 (witness): the respiratory-phase bound at `resp_wave = respfilt =
[0, 1]`, sample index 0. -/
theorem c10_resp_phase_witness :
    ([0, 1] : List ℚ) ≠ []
      ∧ (-Real.pi ≤ Real.pi * (phiRespCoeff [0, 1] [0, 1] 0 : ℝ)
        ∧ Real.pi * (phiRespCoeff [0, 1] [0, 1] 0 : ℝ) ≤ Real.pi) :=
  ⟨by simp, (c10_resp_phase [0, 1] [0, 1] 0 (by simp) rfl).1⟩

theorem sliceCheck_of_lookup (s : PState) (sl cur : ℕ)
    (hcc : cur_slice_acq s.slice_order sl = some cur) :
    sliceCheck s sl
      = (if sliceRespShort s cur then some Outcome.respShort
        else if sliceCardMismatch s cur then some Outcome.cardMismatch else none) := by
  unfold sliceCheck
  rw [hcc]

theorem sliceCheck_eq_none_iff (s : PState) (sl cur : ℕ)
    (hcc : cur_slice_acq s.slice_order sl = some cur) :
    sliceCheck s sl = none ↔
      sliceRespShort s cur = false ∧ sliceCardMismatch s cur = false := by
  rw [sliceCheck_of_lookup s sl cur hcc]
  constructor
  · intro h
    by_cases h1 : sliceRespShort s cur
    · rw [if_pos h1] at h
      exact absurd h (by simp)
    · rw [if_neg h1] at h
      by_cases h2 : sliceCardMismatch s cur
      · rw [if_pos h2] at h
        exact absurd h (by simp)
      · exact ⟨by simpa using h1, by simpa using h2⟩
  · intro h
    rw [if_neg (by simp [h.1]), if_neg (by simp [h.2])]

theorem runOutcome_past_guards (s : PState) (h3 : ¬ s.nframes < 3)
    (hfo : filterStageOk s)
    (hlk : ∀ sl, sl < s.slice_order.length → (cur_slice_acq s.slice_order sl).isSome) :
    runOutcome s
      = (match (List.range s.slice_order.length).findSome? (sliceCheck s) with
        | some e => e
        | none => Outcome.ok) := by
  unfold runOutcome
  rw [if_neg h3, if_neg (not_not_intro hfo)]
  have hguard : (List.range s.slice_order.length).any
      (fun sl => (cur_slice_acq s.slice_order sl).isNone) = false := by
    rw [List.any_eq_false]
    intro sl hsl
    have h := hlk sl (List.mem_range.mp hsl)
    revert h
    cases cur_slice_acq s.slice_order sl <;> simp
  simp [hguard]

theorem st_eval (tp : ℕ) (htp : tp < 3) :
    (sliceTimes 2 1 0 6).getD tp 0 = 1 + 2 * (tp:ℚ) := by
  have h := sliceTimes_getD 2 1 0 3 tp (by norm_num) (by norm_num) htp
  norm_num at h
  rw [List.getD_eq_getElem?_getD, h]
  ring

theorem scan_stateSliceTimes (resp : List ℚ) :
    stateSliceTimes (scanState resp) 0 = sliceTimes 2 1 0 6 := by
  simp [stateSliceTimes, scanState]
  norm_num

theorem scan_respShort_false (resp : List ℚ) (hlen : resp.length = 80) :
    sliceRespShort (scanState resp) 0 = false := by
  unfold sliceRespShort
  rw [List.any_eq_false]
  intro tp htp
  rw [List.mem_range] at htp
  simp only [scanState] at htp
  rw [scan_stateSliceTimes]
  simp only [scanState, hlen]
  rw [st_eval tp htp]
  simp only [decide_eq_true_eq]
  interval_cases tp <;> norm_num [rv_i1, rv_i2, t_win]

theorem scan_cardMismatch_false (resp : List ℚ) :
    sliceCardMismatch (scanState resp) 0 = false := by
  unfold sliceCardMismatch
  rw [scan_stateSliceTimes, st_eval 0 (by norm_num)]
  rw [List.isEmpty_eq_false_iff_exists_mem]
  refine ⟨0, ?_⟩
  unfold hrWindow
  rw [List.mem_filter]
  constructor
  · simp [scanState]
  · simp only [scanState, decide_eq_true_eq]
    norm_num [t_win]

theorem scan_runOutcome_ok (resp : List ℚ) (hlen : resp.length = 80) :
    runOutcome (scanState resp) = .ok := by
  rw [runOutcome_past_guards (scanState resp) (by norm_num [scanState])
    (by norm_num [filterStageOk, scanState, hlen])
    (by intro sl h; simp [scanState] at h; subst h; exact rfl)]
  have hrange : List.range (scanState resp).slice_order.length = [0] := rfl
  rw [hrange]
  have hchk : sliceCheck (scanState resp) 0 = none :=
    (sliceCheck_eq_none_iff (scanState resp) 0 0 rfl).mpr
      ⟨scan_respShort_false resp hlen, scan_cardMismatch_false resp⟩
  simp only [List.findSome?_cons, hchk, List.findSome?_nil]

theorem foldl_min_const (c : ℚ) (n : ℕ) :
    List.foldl min c (List.replicate n c) = c := by
  induction n with
  | zero => rfl
  | succ m ih =>
    rw [List.replicate_succ, List.foldl_cons, min_self]
    exact ih

/-- C4 (counterexample): a scan that runs to completion (`runOutcome = ok`)
whose `resp_wave` is mutated by the call: line 218 replaces it with the
zero-min shifted waveform, so a waveform with minimum 1 does not hold its
original values afterwards. -/
theorem c4_counterexample :
    runOutcome shiftWitnessState = .ok
      ∧ (afterInputs shiftWitnessState).resp_wave ≠ shiftWitnessState.resp_wave := by
  constructor
  · exact scan_runOutcome_ok (1 :: List.replicate 79 1) (by simp)
  · intro h
    rw [afterInputs] at h
    simp only [shiftWitnessState, scanState] at h
    rw [if_neg (by norm_num)] at h
    unfold zeroMin at h
    have hmin : listMin ((1:ℚ) :: List.replicate 79 1) = 1 := by
      simp only [listMin]
      exact foldl_min_const 1 79
    rw [hmin] at h
    simp at h

/-- C4 (amended): `compute_regressors` leaves `tr`, `nframes`, `slice_order`,
`card_trig` and `card_wave` unchanged on every path, but `resp_wave` is
read-only only on the `nframes < 3` early return: otherwise it is replaced
by its zero-min shift (line 218), changing it whenever its minimum is
nonzero. -/
theorem c4_inputs_after (s : PState) :
    (afterInputs s).tr = s.tr ∧ (afterInputs s).nframes = s.nframes
    ∧ (afterInputs s).slice_order = s.slice_order
    ∧ (afterInputs s).card_trig = s.card_trig
    ∧ (afterInputs s).card_wave = s.card_wave
    ∧ (afterInputs s).resp_dt = s.resp_dt
    ∧ (afterInputs s).resp_wave
        = (if s.nframes < 3 then s.resp_wave else zeroMin s.resp_wave) := by
  unfold afterInputs
  by_cases h : s.nframes < 3 <;> simp [h]

/-- C7: for every input with `nframes < 3`, `compute_regressors` returns
without raising, emits the warning, resets the regressor tensor to `None`,
produces no other derived tensor, and leaves every input field unchanged. -/
theorem c7_insufficient_frames (s : PState) (h : s.nframes < 3) :
    runModel s = ⟨.insufficientFrames,
        some "Need at least 3 temporal frames to compute regressors!",
        false, false, false⟩
      ∧ afterInputs s = s := by
  unfold runModel afterInputs
  rw [if_pos h, if_pos h]
  exact ⟨rfl, rfl⟩

/-- C7 (witness): the early return at a concrete 2-frame input. -/
theorem c7_insufficient_frames_witness :
    (⟨2, 2, [0], [], [], [], 1⟩ : PState).nframes < 3
      ∧ runModel ⟨2, 2, [0], [], [], [], 1⟩ = ⟨.insufficientFrames,
          some "Need at least 3 temporal frames to compute regressors!",
          false, false, false⟩ :=
  ⟨by norm_num, (c7_insufficient_frames _ (by norm_num)).1⟩

theorem hrFrom_getD_zero (trig : List ℚ) (prev : ℚ) (times : List ℚ)
    (h0 : 0 < times.length) :
    (hrFrom trig prev times).getD 0 0
      = (if (hrWindow trig (times.getD 0 0)).isEmpty then prev
        else hrVal trig (times.getD 0 0)) := by
  cases times with
  | nil => simp at h0
  | cons st rest => rfl

theorem hrFrom_getD_succ (trig : List ℚ) (prev : ℚ) (times : List ℚ) (j : ℕ)
    (hj : j + 1 < times.length) :
    (hrFrom trig prev times).getD (j + 1) 0
      = (if (hrWindow trig (times.getD (j + 1) 0)).isEmpty
        then (hrFrom trig prev times).getD j 0
        else hrVal trig (times.getD (j + 1) 0)) := by
  induction times generalizing prev j with
  | nil => simp at hj
  | cons st rest ih =>
    cases j with
    | zero =>
      simp only [hrFrom, List.getD_cons_succ, List.getD_cons_zero]
      exact hrFrom_getD_zero trig _ rest (by simpa using hj)
    | succ i =>
      simp only [hrFrom, List.getD_cons_succ]
      exact ih _ i (by simpa using hj)

theorem hrFrom_all_nonempty (trig : List ℚ) (prev : ℚ) (times : List ℚ)
    (h : ∀ st ∈ times, (hrWindow trig st).isEmpty = false) :
    hrFrom trig prev times = times.map (fun st => hrVal trig st) := by
  induction times generalizing prev with
  | nil => rfl
  | cons st rest ih =>
    simp only [hrFrom, List.map_cons]
    rw [h st (List.mem_cons_self st rest)]
    simp only [Bool.false_eq_true, if_false]
    rw [ih _ (fun x hx => h x (List.mem_cons_of_mem st hx))]

theorem hrWindow_natTrig (m lo hi : ℕ) (st : ℚ)
    (hchar : ∀ i, i < m →
      ((st - t_win ≤ (i:ℚ) ∧ (i:ℚ) ≤ st + t_win) ↔ (lo ≤ i ∧ i ≤ hi))) :
    hrWindow ((List.range m).map (fun (k : ℕ) => (k:ℚ))) st
      = (List.range m).filter (fun i => lo ≤ i ∧ i ≤ hi) := by
  unfold hrWindow
  rw [List.length_map, List.length_range]
  apply List.filter_congr
  intro i hi
  rw [List.mem_range] at hi
  rw [getD_mapRange m _ i hi]
  exact decide_eq_decide.mpr (hchar i hi)

theorem hrVal_natTrig (m : ℕ) (w : List ℕ) (st : ℚ)
    (hw : hrWindow ((List.range m).map (fun (k : ℕ) => (k:ℚ))) st = w)
    (hF : w.headD 0 < m) (hL : w.getLastD 0 < m) :
    hrVal ((List.range m).map (fun (k : ℕ) => (k:ℚ))) st
      = ((w.getLastD 0 : ℚ) - (w.headD 0 : ℚ)) * 60
          / ((w.getLastD 0 : ℚ) - (w.headD 0 : ℚ)) := by
  unfold hrVal
  simp only [hw]
  rw [getD_mapRange m _ _ hL, getD_mapRange m _ _ hF]

theorem sub_mul_div_self_sixty (x y : ℕ) (h : x < y) :
    ((y:ℚ) - (x:ℚ)) * 60 / ((y:ℚ) - (x:ℚ)) = 60 := by
  have hlt : (x:ℚ) < y := by exact_mod_cast h
  have hne : (y:ℚ) - x ≠ 0 := sub_ne_zero.mpr (ne_of_gt hlt)
  field_simp

theorem scenario_frame (k : ℕ) (hk : k < 10) :
    (hrWindow ((List.range 21).map (fun (j : ℕ) => (j:ℚ))) (1 + 2*(k:ℚ))).isEmpty = false
    ∧ hrVal ((List.range 21).map (fun (j : ℕ) => (j:ℚ))) (1 + 2*(k:ℚ)) = 60 := by
  have hwin : hrWindow ((List.range 21).map (fun (j : ℕ) => (j:ℚ))) (1 + 2*(k:ℚ))
      = (List.range 21).filter (fun i => 2*k - 2 ≤ i ∧ i ≤ min 20 (2*k + 4)) := by
    apply hrWindow_natTrig
    intro i hi
    unfold t_win
    constructor
    · rintro ⟨h1, h2⟩
      constructor
      · have hc : ((2*(k:ℤ) - 2 : ℤ) : ℚ) ≤ ((i:ℤ) : ℚ) := by push_cast; linarith
        have h3 : (2*(k:ℤ) - 2) ≤ (i:ℤ) := by exact_mod_cast hc
        omega
      · have hc : ((i:ℤ) : ℚ) ≤ ((2*(k:ℤ) + 4 : ℤ) : ℚ) := by push_cast; linarith
        have h3 : (i:ℤ) ≤ 2*(k:ℤ) + 4 := by exact_mod_cast hc
        omega
    · rintro ⟨h1, h2⟩
      constructor
      · have h3 : (2*(k:ℤ) - 2) ≤ (i:ℤ) := by omega
        have hc : ((2*(k:ℤ) - 2 : ℤ) : ℚ) ≤ ((i:ℤ) : ℚ) := by exact_mod_cast h3
        push_cast at hc
        linarith
      · have h3 : (i:ℤ) ≤ 2*(k:ℤ) + 4 := by omega
        have hc : ((i:ℤ) : ℚ) ≤ ((2*(k:ℤ) + 4 : ℤ) : ℚ) := by exact_mod_cast h3
        push_cast at hc
        linarith
  constructor
  · rw [hwin]
    interval_cases k <;> decide
  · interval_cases k <;>
      (rw [hrVal_natTrig 21 _ _ hwin (by decide) (by decide)]
       exact sub_mul_div_self_sixty _ _ (by decide))

theorem scenario_times_mem (st : ℚ) (hst : st ∈ sliceTimes 2 1 0 20) :
    ∃ k : ℕ, k < 10 ∧ st = 1 + 2*(k:ℚ) := by
  unfold sliceTimes at hst
  rw [mem_np_arange _ _ _ _ (by norm_num)] at hst
  obtain ⟨k, hk1, hk2⟩ := hst
  norm_num at hk1
  refine ⟨k, ?_, by rw [hk1]; ring⟩
  rw [hk1] at hk2
  by_contra hge
  push_neg at hge
  have h10 : (10:ℚ) ≤ (k:ℚ) := by exact_mod_cast hge
  linarith

theorem scenario_series :
    hrSeries ((List.range 21).map (fun (j : ℕ) => (j:ℚ))) (sliceTimes 2 1 0 20)
      = List.replicate 10 60 := by
  have hne : ∀ st ∈ sliceTimes 2 1 0 20,
      (hrWindow ((List.range 21).map (fun (j : ℕ) => (j:ℚ))) st).isEmpty = false := by
    intro st hst
    obtain ⟨k, hk, rfl⟩ := scenario_times_mem st hst
    exact (scenario_frame k hk).1
  unfold hrSeries
  rw [hrFrom_all_nonempty _ _ _ hne]
  rw [List.eq_replicate]
  constructor
  · rw [List.length_map]
    have hl := sliceTimes_length 2 1 0 10 (by norm_num) (by norm_num)
    norm_num at hl
    exact hl
  · intro b hb
    obtain ⟨st, hst, rfl⟩ := List.mem_map.mp hb
    obtain ⟨k, hk, rfl⟩ := scenario_times_mem st hst
    exact (scenario_frame k hk).2

theorem filter_range_map_getD (l : List ℚ) (p : ℚ → Bool) :
    ((List.range l.length).filter (fun i => p (l.getD i 0))).map (fun i => l.getD i 0)
      = l.filter p := by
  induction l with
  | nil => simp
  | cons x xs ih =>
    have key : ((List.map Nat.succ (List.range xs.length)).filter
          (fun i => p ((x :: xs).getD i 0))).map (fun i => (x :: xs).getD i 0)
        = xs.filter p := by
      rw [List.filter_map, List.map_map]
      have h1 : ((fun i => p ((x :: xs).getD i 0)) ∘ Nat.succ)
          = (fun j => p (xs.getD j 0)) := by
        funext j
        simp
      have h2 : ((fun i => (x :: xs).getD i 0) ∘ Nat.succ)
          = (fun j => xs.getD j 0) := by
        funext j
        simp
      rw [h1, h2]
      exact ih
    rw [List.length_cons, List.range_succ_eq_map, List.filter_cons]
    simp only [List.getD_cons_zero]
    by_cases hp : p x = true
    · rw [if_pos hp, List.map_cons]
      simp only [List.getD_cons_zero]
      rw [key, List.filter_cons, if_pos hp]
    · rw [if_neg hp, key, List.filter_cons, if_neg hp]

theorem getLastD_map (g : ℕ → ℚ) (l : List ℕ) (d : ℕ) :
    (l.map g).getLastD (g d) = g (l.getLastD d) := by
  induction l generalizing d with
  | nil => rfl
  | cons y ys ih =>
    rw [List.map_cons, List.getLastD_cons, List.getLastD_cons]
    exact ih y

theorem getLastD_irrel (y : ℕ) (ys : List ℕ) (d d' : ℕ) :
    (y :: ys).getLastD d = (y :: ys).getLastD d' := by
  rw [List.getLastD_cons, List.getLastD_cons]

theorem pairwise_lt_headD_le (l : List ℕ) (hs : l.Pairwise (· < ·)) (j : ℕ)
    (hj : j ∈ l) : l.headD 0 ≤ j := by
  cases l with
  | nil => simp at hj
  | cons x rest =>
    rw [List.headD_cons]
    rcases List.mem_cons.mp hj with rfl | hmem
    · exact le_refl j
    · exact le_of_lt ((List.pairwise_cons.mp hs).1 j hmem)

theorem pairwise_lt_le_getLastD (l : List ℕ) (hs : l.Pairwise (· < ·)) (j : ℕ)
    (hj : j ∈ l) : j ≤ l.getLastD 0 := by
  induction l with
  | nil => simp at hj
  | cons x rest ih =>
    rcases List.mem_cons.mp hj with rfl | hmem
    · cases rest with
      | nil => simp [List.getLastD]
      | cons y ys =>
        rw [List.getLastD_cons]
        have hmem2 := List.getLastD_mem_cons (y :: ys) j
        rcases List.mem_cons.mp hmem2 with heq | hmem3
        · rw [heq]
        · exact le_of_lt ((List.pairwise_cons.mp hs).1 _ hmem3)
    · cases rest with
      | nil => simp at hmem
      | cons y ys =>
        rw [List.getLastD_cons, getLastD_irrel y ys x 0, ← List.getLastD_cons 0]
        exact ih ((List.pairwise_cons.mp hs).2) hmem

theorem sorted_getD_mono (l : List ℚ) (hs : l.Sorted (· ≤ ·)) (i j : ℕ)
    (hij : i ≤ j) (hj : j < l.length) : l.getD i 0 ≤ l.getD j 0 := by
  rcases eq_or_lt_of_le hij with rfl | hlt
  · exact le_refl _
  · rw [List.getD_eq_getElem l 0 (lt_of_le_of_lt hij hj), List.getD_eq_getElem l 0 hj]
    exact List.pairwise_iff_get.mp hs ⟨i, lt_of_le_of_lt hij hj⟩ ⟨j, hj⟩ hlt

theorem hrWindow_pairwise (trig : List ℚ) (st : ℚ) :
    (hrWindow trig st).Pairwise (· < ·) :=
  (List.pairwise_lt_range _).filter _

theorem mem_hrWindow_iff (trig : List ℚ) (st : ℚ) (j : ℕ) :
    j ∈ hrWindow trig st ↔ j < trig.length ∧
      (st - t_win ≤ trig.getD j 0 ∧ trig.getD j 0 ≤ st + t_win) := by
  unfold hrWindow
  rw [List.mem_filter, List.mem_range]
  simp

theorem headD_mem_of_ne_nil (l : List ℕ) (h : l ≠ []) : l.headD 0 ∈ l := by
  cases l with
  | nil => exact absurd rfl h
  | cons x rest =>
    rw [List.headD_cons]
    exact List.mem_cons_self x rest

theorem getLastD_mem_of_ne_nil (l : List ℕ) (h : l ≠ []) : l.getLastD 0 ∈ l := by
  cases l with
  | nil => exact absurd rfl h
  | cons x rest =>
    rw [List.getLastD_cons]
    exact List.getLastD_mem_cons rest x

theorem hrWindow_length_eq (trig : List ℚ) (st : ℚ) (hs : trig.Sorted (· ≤ ·))
    (hne : hrWindow trig st ≠ []) :
    (hrWindow trig st).length
      = (hrWindow trig st).getLastD 0 - (hrWindow trig st).headD 0 + 1
    ∧ (hrWindow trig st).headD 0 ≤ (hrWindow trig st).getLastD 0 := by
  have hpw := hrWindow_pairwise trig st
  have hF := headD_mem_of_ne_nil _ hne
  have hL := getLastD_mem_of_ne_nil _ hne
  have hFL : (hrWindow trig st).headD 0 ≤ (hrWindow trig st).getLastD 0 :=
    pairwise_lt_headD_le _ hpw _ hL
  set iF := (hrWindow trig st).headD 0 with hiF
  set iL := (hrWindow trig st).getLastD 0 with hiL
  have hFprop := (mem_hrWindow_iff trig st iF).mp hF
  have hLprop := (mem_hrWindow_iff trig st iL).mp hL
  have hsub1 : hrWindow trig st ⊆ List.range' iF (iL + 1 - iF) := by
    intro j hj
    rw [List.mem_range'_1]
    refine ⟨pairwise_lt_headD_le _ hpw _ hj, ?_⟩
    have := pairwise_lt_le_getLastD _ hpw _ hj
    omega
  have hsub2 : List.range' iF (iL + 1 - iF) ⊆ hrWindow trig st := by
    intro j hj
    rw [List.mem_range'_1] at hj
    have hjL : j ≤ iL := by omega
    have hjF : iF ≤ j := hj.1
    have hjlen : j < trig.length := lt_of_le_of_lt hjL hLprop.1
    rw [mem_hrWindow_iff]
    refine ⟨hjlen, ?_, ?_⟩
    · calc st - t_win ≤ trig.getD iF 0 := hFprop.2.1
        _ ≤ trig.getD j 0 := sorted_getD_mono trig hs iF j hjF hjlen
    · calc trig.getD j 0 ≤ trig.getD iL 0 := sorted_getD_mono trig hs j iL hjL hLprop.1
        _ ≤ st + t_win := hLprop.2.2
  have hnd1 : (hrWindow trig st).Nodup := hpw.imp (fun hlt => Nat.ne_of_lt hlt)
  have hnd2 : (List.range' iF (iL + 1 - iF)).Nodup :=
    List.nodup_range' _ _ _ (by norm_num)
  have hle1 := (List.Nodup.subperm hnd1 hsub1).length_le
  have hle2 := (List.Nodup.subperm hnd2 hsub2).length_le
  rw [List.length_range'] at hle1 hle2
  exact ⟨by omega, hFL⟩

theorem hrVal_eq_spec (trig : List ℚ) (st : ℚ) (hs : trig.Sorted (· ≤ ·))
    (hne : hrWindow trig st ≠ []) :
    hrVal trig st = hrSpecVal trig st := by
  have hmap : (hrWindow trig st).map (fun i => trig.getD i 0)
      = trig.filter (fun x => st - t_win ≤ x ∧ x ≤ st + t_win) := by
    unfold hrWindow
    exact filter_range_map_getD trig
      (fun x => decide (st - t_win ≤ x ∧ x ≤ st + t_win))
  obtain ⟨a, as, hcons⟩ : ∃ a as, hrWindow trig st = a :: as := by
    cases h : hrWindow trig st with
    | nil => exact absurd h hne
    | cons a as => exact ⟨a, as, rfl⟩
  obtain ⟨hlen, hFL⟩ := hrWindow_length_eq trig st hs hne
  have h1 : (trig.filter (fun x => st - t_win ≤ x ∧ x ≤ st + t_win)).length
      = (hrWindow trig st).length := by
    rw [← hmap, List.length_map]
  have h2 : (trig.filter (fun x => st - t_win ≤ x ∧ x ≤ st + t_win)).headD 0
      = trig.getD ((hrWindow trig st).headD 0) 0 := by
    rw [← hmap, hcons, List.map_cons, List.headD_cons, List.headD_cons]
  have h3 : (trig.filter (fun x => st - t_win ≤ x ∧ x ≤ st + t_win)).getLastD 0
      = trig.getD ((hrWindow trig st).getLastD 0) 0 := by
    rw [← hmap, hcons, List.map_cons, List.getLastD_cons, List.getLastD_cons]
    exact getLastD_map _ as a
  have hlen' : (((hrWindow trig st).length : ℕ) : ℚ)
      = ((hrWindow trig st).getLastD 0 : ℚ) - ((hrWindow trig st).headD 0 : ℚ) + 1 := by
    rw [hlen, Nat.cast_add, Nat.cast_sub hFL, Nat.cast_one]
  unfold hrVal hrSpecVal
  simp only [h1, h2, h3, hlen']
  ring

/-- C6: with ascending cardiac triggers (the input contract), the pre-demean
heart-rate value of a frame with a non-empty trigger window equals
`(count - 1) * 60 / (last_trigger - first_trigger)` over the triggers
falling in `[slice_time - t_win, slice_time + t_win]` (`hrSpecVal`); a frame
with an empty window and positive index holds the previous frame's value;
and in Scenario A (`nslices = 1`, `slice_order = [0]`, `tr = 2`,
`nframes = 10`, triggers every second for 20 s) the HR series is 60 bpm at
every frame. -/
theorem c6_heart_rate :
    (∀ (trig times : List ℚ) (tp : ℕ), tp < times.length →
        trig.Sorted (· ≤ ·) →
        (hrWindow trig (times.getD tp 0) ≠ [] →
          (hrSeries trig times).getD tp 0 = hrSpecVal trig (times.getD tp 0))
        ∧ ((hrWindow trig (times.getD tp 0)).isEmpty = true → 0 < tp →
          (hrSeries trig times).getD tp 0 = (hrSeries trig times).getD (tp - 1) 0))
    ∧ hrSeries ((List.range 21).map (fun (j : ℕ) => (j:ℚ))) (sliceTimes 2 1 0 20)
        = List.replicate 10 60 := by
  refine ⟨?_, scenario_series⟩
  intro trig times tp htp hs
  constructor
  · intro hne
    have hemp : (hrWindow trig (times.getD tp 0)).isEmpty = false := by
      cases h : hrWindow trig (times.getD tp 0) with
      | nil => exact absurd h hne
      | cons a as => rfl
    have hval := hrVal_eq_spec trig (times.getD tp 0) hs hne
    cases tp with
    | zero =>
      unfold hrSeries
      rw [hrFrom_getD_zero trig 0 times (by omega), hemp]
      simp only [Bool.false_eq_true, if_false]
      exact hval
    | succ j =>
      unfold hrSeries
      rw [hrFrom_getD_succ trig 0 times j htp, hemp]
      simp only [Bool.false_eq_true, if_false]
      exact hval
  · intro hemp htp0
    cases tp with
    | zero => omega
    | succ j =>
      unfold hrSeries
      rw [hrFrom_getD_succ trig 0 times j htp, hemp]
      simp

/-- C6 (witness): the window formula applied at a single trigger at `t = 1`
observed from one frame at `t = 1`. -/
theorem c6_heart_rate_witness :
    (hrSeries [(1:ℚ)] [(1:ℚ)]).getD 0 0 = hrSpecVal [(1:ℚ)] ([(1:ℚ)].getD 0 0) :=
  ((c6_heart_rate.1 [1] [1] 0 (by norm_num) (by simp)).1
    (by unfold hrWindow t_win; norm_num))

theorem sum_map_sub_q (l : List ℕ) (f g : ℕ → ℚ) :
    (l.map (fun k => f k - g k)).sum = (l.map f).sum - (l.map g).sum := by
  induction l with
  | nil => simp
  | cons x xs ih =>
    simp only [List.map_cons, List.sum_cons, ih]
    ring

theorem sum_map_mul_left_q (l : List ℕ) (c : ℚ) (f : ℕ → ℚ) :
    (l.map (fun k => c * f k)).sum = c * (l.map f).sum := by
  induction l with
  | nil => simp
  | cons x xs ih =>
    simp only [List.map_cons, List.sum_cons, ih]
    ring

theorem sum_map_add_q (l : List ℕ) (f g : ℕ → ℚ) :
    (l.map (fun k => f k + g k)).sum = (l.map f).sum + (l.map g).sum := by
  induction l with
  | nil => simp
  | cons x xs ih =>
    simp only [List.map_cons, List.sum_cons, ih]
    ring

theorem detrend_length (y : List ℚ) : (detrend y).length = y.length := by
  simp [detrend]

theorem detrend_getD (y : List ℚ) (k : ℕ) (hk : k < y.length) :
    (detrend y).getD k 0
      = y.getD k 0 - ((polyfit2 y).2.2 * (k:ℚ)^2
          + (polyfit2 y).2.1 * (k:ℚ) + (polyfit2 y).1) := by
  unfold detrend
  exact getD_mapRange _ _ _ hk

theorem momSum_detrend (y : List ℚ) (m : ℕ) :
    momSum (detrend y) m
      = momSum y m - ((polyfit2 y).1 * powSum y.length m
          + (polyfit2 y).2.1 * powSum y.length (m+1)
          + (polyfit2 y).2.2 * powSum y.length (m+2)) := by
  unfold momSum
  rw [detrend_length]
  have hcong : (List.range y.length).map (fun (k : ℕ) => (k:ℚ)^m * (detrend y).getD k 0)
      = (List.range y.length).map (fun (k : ℕ) =>
          (k:ℚ)^m * y.getD k 0
          - ((polyfit2 y).1 * (k:ℚ)^m + ((polyfit2 y).2.1 * (k:ℚ)^(m+1)
              + (polyfit2 y).2.2 * (k:ℚ)^(m+2)))) := by
    apply List.map_congr_left
    intro k hk
    rw [List.mem_range] at hk
    rw [detrend_getD y k hk]
    ring
  rw [hcong, sum_map_sub_q]
  congr 1
  rw [sum_map_add_q, sum_map_add_q, sum_map_mul_left_q, sum_map_mul_left_q,
    sum_map_mul_left_q]
  unfold powSum
  ring

/-- C9: re-fitting a degree-2 polynomial (least squares against the frame
index) to a detrended column yields coefficients that are exactly zero in
exact arithmetic — the detrended residual has vanishing moments against the
quadratic design. -/
theorem c9_detrend_refit (y : List ℚ) :
    polyfit2 (detrend y) = (0, 0, 0) := by
  by_cases hD : gramDet y.length = 0
  · unfold polyfit2
    simp only [detrend_length, hD]
    simp
  · have hm0 := momSum_detrend y 0
    have hm1 := momSum_detrend y 1
    have hm2 := momSum_detrend y 2
    norm_num at hm0 hm1 hm2
    unfold polyfit2
    simp only [detrend_length, hm0, hm1, hm2]
    unfold polyfit2 gramDet det3
    unfold gramDet det3 at hD
    simp only [Prod.mk.injEq]
    refine ⟨?_, ?_, ?_⟩ <;>
      (rw [div_eq_zero_iff]
       left
       field_simp
       ring)
